import Mathlib

/-!
Verification of the eden overlay persistence layer, inode-number lifecycle,
directory node graph and diff status callback.

The embedding follows `eden/fs/inodes/overlay/FsOverlay.h`,
`eden/fs/inodes/TreeInode.h` and `eden/fs/inodes/Differ.cpp`.  Where only a
declaration (with its documentation comment) is present in the sources, the
corresponding definition is modelled from the specification and is marked as
such in its doc comment.
-/

namespace Eden

/-! ## Inode numbers and overlay constants (`FsOverlay.h`) -/

/-- Modelled from the spec: the reserved root node identifier (`kRootNodeId`
from `eden/fs/fuse/InodeNumber.h`, which is not among the sources).  Node
identifiers are strictly positive and `ROOT` is the smallest one. -/
def kRootNodeId : Nat := 1

/-- Header format version, `FsOverlay::kHeaderVersion`. -/
def kHeaderVersion : Nat := 1

/-- Fixed header size in bytes, `FsOverlay::kHeaderLength`. -/
def kHeaderLength : Nat := 64

/-- The four magic bytes "OVDR" of `FsOverlay::kHeaderIdentifierDir`. -/
def kHeaderIdentifierDir : List Nat := [79, 86, 68, 82]

/-- The four magic bytes "OVFL" of `FsOverlay::kHeaderIdentifierFile`. -/
def kHeaderIdentifierFile : List Nat := [79, 86, 70, 76]

/-- The number of digits required for a decimal representation of an inode
number, `FsOverlay::kMaxDecimalInodeNumberLength`. -/
def kMaxDecimalInodeNumberLength : Nat := 20

/-- Maximum length of the path to an overlay record file relative to the
overlay directory, `InodePath::kMaxPathLength`: 2 bytes of subdirectory name,
1 byte for the slash, the decimal inode number and a trailing NUL byte. -/
def InodePath.kMaxPathLength : Nat := 2 + 1 + kMaxDecimalInodeNumberLength + 1

/-! ### Decimal representation of a 64-bit inode number (claim C9)

The record file name is the decimal representation of the inode number
(`FsOverlay::getFilePath` writes it with a `PRIu64` format).  We compute the
little-endian digit list with explicit fuel; the fuel `n` is always enough
because the value shrinks by a factor of ten at every step. -/

def decimalDigitsAux : Nat → Nat → List Nat
  | 0, _ => []
  | fuel + 1, n => if n = 0 then [] else n % 10 :: decimalDigitsAux fuel (n / 10)

/-- Little-endian decimal digits of `n` (empty for 0). -/
def decimalDigits (n : Nat) : List Nat := decimalDigitsAux n n

/-- The bytes of the decimal representation of `n`, most significant digit
first, as written into the record file name. -/
def decimalBytes (n : Nat) : List Nat :=
  if n = 0 then [48] else (decimalDigits n).reverse.map (fun d => 48 + d)

/-- Lowercase hexadecimal digit byte for a value below 16. -/
def hexDigit (k : Nat) : Nat := if k < 10 then 48 + k else 87 + k

/-- The two-character shard subdirectory name: the low-order byte of the
inode number in hexadecimal (`FsOverlay::formatSubdirPath`). -/
def formatSubdirPath (n : Nat) : List Nat :=
  [hexDigit (n % 256 / 16), hexDigit (n % 16)]

/-- The relative path of the record file for inode `n`
(`FsOverlay::getFilePath`): shard directory, slash, decimal inode number and
a NUL terminator. -/
def getFilePath (n : Nat) : List Nat :=
  formatSubdirPath n ++ [47] ++ decimalBytes n ++ [0]

theorem decimalDigitsAux_length_le {fuel n k : Nat} (hfuel : n ≤ fuel)
    (h : n < 10 ^ k) : (decimalDigitsAux fuel n).length ≤ k := by
  induction fuel generalizing n k with
  | zero => simp [decimalDigitsAux]
  | succ fuel ih =>
    by_cases hn : n = 0
    · simp [decimalDigitsAux, hn]
    · have hk : k ≠ 0 := by
        rintro rfl
        simp at h
        omega
      obtain ⟨k, rfl⟩ := Nat.exists_eq_succ_of_ne_zero hk
      have hdiv : n / 10 < 10 ^ k := by
        rw [Nat.div_lt_iff_lt_mul (by norm_num)]
        calc n < 10 ^ (k + 1) := h
        _ = 10 ^ k * 10 := by ring
      have hfuel' : n / 10 ≤ fuel := by
        have := Nat.div_lt_self (Nat.pos_of_ne_zero hn) (by norm_num : 1 < 10)
        omega
      simp only [decimalDigitsAux, hn, if_false, List.length_cons]
      exact Nat.succ_le_succ (ih hfuel' hdiv)

theorem decimalDigitsAux_ofDigits {fuel n : Nat} (hfuel : n ≤ fuel) :
    Nat.ofDigits 10 (decimalDigitsAux fuel n) = n := by
  induction fuel generalizing n with
  | zero =>
    have : n = 0 := by omega
    simp [decimalDigitsAux, this]
  | succ fuel ih =>
    by_cases hn : n = 0
    · simp [decimalDigitsAux, hn]
    · have hfuel' : n / 10 ≤ fuel := by
        have := Nat.div_lt_self (Nat.pos_of_ne_zero hn) (by norm_num : 1 < 10)
        omega
      simp only [decimalDigitsAux, hn, if_false, Nat.ofDigits_cons, ih hfuel']
      omega

/-- Digit extraction is faithful: reassembling the digits of `n` in base ten
yields `n` again, so `decimalBytes` really is the decimal representation. -/
theorem decimalDigits_ofDigits (n : Nat) :
    Nat.ofDigits 10 (decimalDigits n) = n :=
  decimalDigitsAux_ofDigits le_rfl

/-- C9.  Every inode number below `2 ^ 64` has a decimal representation of at
most `kMaxDecimalInodeNumberLength = 20` bytes, and the relative path of its
overlay record file (two shard characters, a slash, the decimal number and a
NUL terminator) fits within the `InodePath.kMaxPathLength = 24` byte buffer. -/
theorem inodePath_fits (n : Nat) (h : n < 2 ^ 64) :
    (decimalBytes n).length ≤ kMaxDecimalInodeNumberLength ∧
    (getFilePath n).length ≤ InodePath.kMaxPathLength := by
  have hlt : n < 10 ^ 20 := lt_of_lt_of_le h (by norm_num)
  have hlen : (decimalBytes n).length ≤ 20 := by
    by_cases hn : n = 0
    · simp [decimalBytes, hn]
    · simpa [decimalBytes, hn, decimalDigits] using
        decimalDigitsAux_length_le le_rfl hlt
  refine ⟨hlen, ?_⟩
  simp only [getFilePath, formatSubdirPath, List.length_append, List.length_cons,
    InodePath.kMaxPathLength, kMaxDecimalInodeNumberLength]
  simp only [kMaxDecimalInodeNumberLength] at hlen
  simp
  omega

/-- C9 witness: the largest 64-bit inode number needs exactly 20 decimal
digits and its record path fits in the 24-byte buffer. -/
theorem inodePath_fits_witness :
    18446744073709551615 < 2 ^ 64 ∧
    ((decimalBytes 18446744073709551615).length ≤ kMaxDecimalInodeNumberLength ∧
     (getFilePath 18446744073709551615).length ≤ InodePath.kMaxPathLength) :=
  ⟨by norm_num, inodePath_fits 18446744073709551615 (by norm_num)⟩

/-! ### Scanning for the next inode number (claim C1) -/

/-- Modelled from the spec: the body of `FsOverlay::scanForNextInodeNumber` is
not among the sources.  Per its declaration comment it scans the inode record
files for the maximum inode number and returns `maximumInodeNumber + 1`, the
minimum possible result (no record files) being `kRootNodeId + 1`.  The scan
is a fold over the inode numbers of all record files present on disk. -/
def scanForNextInodeNumber (records : List Nat) : Nat :=
  records.foldl max kRootNodeId + 1

theorem foldl_max_le_init (l : List Nat) (a : Nat) : a ≤ l.foldl max a := by
  induction l generalizing a with
  | nil => simp
  | cons x xs ih => exact le_trans (le_max_left a x) (ih (max a x))

theorem foldl_max_le_mem {l : List Nat} {r : Nat} (hr : r ∈ l) (a : Nat) :
    r ≤ l.foldl max a := by
  induction l generalizing a with
  | nil => cases hr
  | cons x xs ih =>
    rcases List.mem_cons.mp hr with rfl | hr
    · exact le_trans (le_max_right a r) (foldl_max_le_init xs (max a r))
    · exact ih hr (max a x)

theorem foldl_max_eq_init_or_mem (l : List Nat) (a : Nat) :
    l.foldl max a = a ∨ l.foldl max a ∈ l := by
  induction l generalizing a with
  | nil => simp
  | cons x xs ih =>
    rcases ih (max a x) with h | h
    · rcases max_choice a x with hm | hm
      · left
        rw [List.foldl_cons, h, hm]
      · right
        rw [List.foldl_cons, h, hm]
        exact List.mem_cons_self x xs
    · right
      exact List.mem_cons_of_mem x h

/-- C1.  Recovery after an unclean shutdown: provided every record's inode
number is at least `kRootNodeId`, the scan returns a value strictly greater
than every inode number present on disk; with no records it returns exactly
`kRootNodeId + 1`; and with at least one record it returns the maximum
present inode number plus one. -/
theorem scanForNextInodeNumber_spec (records : List Nat)
    (hpos : ∀ r ∈ records, kRootNodeId ≤ r) :
    (∀ r ∈ records, r < scanForNextInodeNumber records) ∧
    (records = [] → scanForNextInodeNumber records = kRootNodeId + 1) ∧
    (records ≠ [] → ∃ m ∈ records, scanForNextInodeNumber records = m + 1 ∧
      ∀ r ∈ records, r ≤ m) := by
  refine ⟨?_, ?_, ?_⟩
  · intro r hr
    have := foldl_max_le_mem hr kRootNodeId
    simp only [scanForNextInodeNumber]
    omega
  · intro h
    simp [scanForNextInodeNumber, h]
  · intro hne
    rcases foldl_max_eq_init_or_mem records kRootNodeId with h | h
    · obtain ⟨x, hx⟩ := List.exists_mem_of_ne_nil records hne
      refine ⟨x, hx, ?_, ?_⟩
      · have h1 := foldl_max_le_mem hx kRootNodeId
        have h2 := hpos x hx
        simp only [scanForNextInodeNumber, h] at h1 ⊢
        omega
      · intro r hr
        have h1 := foldl_max_le_mem hr kRootNodeId
        have h2 := hpos x hx
        rw [h] at h1
        omega
    · exact ⟨records.foldl max kRootNodeId, h, rfl,
        fun r hr => foldl_max_le_mem hr kRootNodeId⟩

/-- C1 witness: scanning records 5, 2 and 9 yields 10, strictly above each of
them and equal to the maximum plus one; scanning no records yields
`kRootNodeId + 1 = 2`. -/
theorem scanForNextInodeNumber_spec_witness :
    (∀ r ∈ [5, 2, 9], kRootNodeId ≤ r) ∧
    ((∀ r ∈ [5, 2, 9], r < scanForNextInodeNumber [5, 2, 9]) ∧
     ([5, 2, 9] = ([] : List Nat) → scanForNextInodeNumber [5, 2, 9] = kRootNodeId + 1) ∧
     ([5, 2, 9] ≠ ([] : List Nat) → ∃ m ∈ [5, 2, 9],
        scanForNextInodeNumber [5, 2, 9] = m + 1 ∧ ∀ r ∈ [5, 2, 9], r ≤ m)) :=
  ⟨by decide, scanForNextInodeNumber_spec [5, 2, 9] (by decide)⟩

/-! ### The next-inode-number file and overlay open/close (claims C7, C10) -/

/-- Errors thrown by the overlay layer.  `systemError` corresponds to
`folly::throwSystemError`; `corruptionError` to the corruption exceptions
thrown by header validation and record deserialization. -/
inductive OverlayError
  | systemError
  | corruptionError
deriving DecidableEq, Repr

/-- Little-endian byte decoding of an unsigned 64-bit value. -/
def decodeU64 (bytes : List Nat) : Nat :=
  bytes.foldr (fun b acc => b + 256 * acc) 0

/-- Little-endian byte encoding of an unsigned 64-bit value. -/
def encodeU64 (n : Nat) : List Nat :=
  [n % 256, n / 256 % 256, n / 2 ^ 16 % 256, n / 2 ^ 24 % 256,
   n / 2 ^ 32 % 256, n / 2 ^ 40 % 256, n / 2 ^ 48 % 256, n / 2 ^ 56 % 256]

theorem decodeU64_encodeU64 (n : Nat) (h : n < 2 ^ 64) :
    decodeU64 (encodeU64 n) = n := by
  simp only [decodeU64, encodeU64, List.foldr]
  omega

theorem encodeU64_length (n : Nat) : (encodeU64 n).length = 8 := rfl

/-- Contents of the next-inode-number file when it exists.  `openable` is
false when the file exists but opening it fails (for example because of
permissions); `bytes` is its raw content. -/
structure NextInodeFile where
  openable : Bool
  bytes : List Nat
deriving DecidableEq, Repr

/-- On-disk state of an overlay directory, as far as inode-number recovery is
concerned: the optional next-inode-number file and the set of record files.
A present next-inode-number file is the clean-shutdown marker: it is written
on a clean close and consumed when the overlay is opened. -/
structure OverlayDisk where
  nextInodeFile : Option NextInodeFile
  records : List Nat
deriving DecidableEq, Repr

/-- Modelled from the spec: the body of `FsOverlay::tryLoadNextInodeNumber`
is not among the sources.  Per its declaration comment: if the file exists
and contains a valid inode number, that value is returned; if the file does
not exist, the optional has no value; if the file cannot be opened or does
not contain a valid inode number (its content is not exactly a 64-bit
value), a `SystemError` is thrown. -/
def tryLoadNextInodeNumber (d : OverlayDisk) :
    Except OverlayError (Option Nat) :=
  match d.nextInodeFile with
  | none => .ok none
  | some f =>
    if f.openable then
      if f.bytes.length = 8 then .ok (some (decodeU64 f.bytes))
      else .error .systemError
    else .error .systemError

/-- Modelled from the spec: the body of `FsOverlay::initOverlay` is not among
the sources.  Per its declaration comment and the spec, opening the overlay
loads the persisted next inode number and returns it; if the overlay was not
shut down cleanly by the previous user there is no trusted persisted value
and `none` is returned, the caller then having to rescan.  Opening consumes
the clean-shutdown marker, so a session that never closes cleanly leaves no
trusted value behind. -/
def initOverlay (d : OverlayDisk) :
    Except OverlayError (Option Nat × OverlayDisk) :=
  match tryLoadNextInodeNumber d with
  | .error e => .error e
  | .ok v => .ok (v, { d with nextInodeFile := none })

/-- Modelled from the spec: `FsOverlay::close` persists the next inode
number, if present, into the next-inode-number file (re-creating the
clean-shutdown marker) and releases the lock. -/
def closeOverlay (d : OverlayDisk) (nextInodeNumber : Option Nat) :
    OverlayDisk :=
  { d with nextInodeFile := nextInodeNumber.map fun n => ⟨true, encodeU64 n⟩ }

/-- C10.  `tryLoadNextInodeNumber` distinguishes its failure modes: it
returns an empty optional exactly when the next-inode-number file does not
exist, and throws a `SystemError` — rather than returning an empty optional —
whenever the file exists but cannot be opened or does not hold a valid
64-bit inode number. -/
theorem tryLoadNextInodeNumber_spec (d : OverlayDisk) :
    (tryLoadNextInodeNumber d = .ok none ↔ d.nextInodeFile = none) ∧
    (∀ f, d.nextInodeFile = some f →
      (f.openable = false ∨ f.bytes.length ≠ 8) →
      tryLoadNextInodeNumber d = .error .systemError) := by
  constructor
  · constructor
    · intro h
      cases hd : d.nextInodeFile with
      | none => rfl
      | some f =>
        simp only [tryLoadNextInodeNumber, hd] at h
        by_cases ho : f.openable <;> by_cases hl : f.bytes.length = 8 <;>
          simp [ho, hl] at h
    · intro h
      simp [tryLoadNextInodeNumber, h]
  · intro f hf hbad
    rcases hbad with h | h <;>
      simp [tryLoadNextInodeNumber, hf, h]

/-- C10 witness: an absent file yields an empty optional; an existing but
unreadable file (present, unopenable) yields a `SystemError`. -/
theorem tryLoadNextInodeNumber_spec_witness :
    (tryLoadNextInodeNumber ⟨none, []⟩ = .ok none ↔
      (OverlayDisk.mk none []).nextInodeFile = none) ∧
    tryLoadNextInodeNumber ⟨some ⟨false, [1]⟩, []⟩ = .error .systemError :=
  ⟨(tryLoadNextInodeNumber_spec ⟨none, []⟩).1,
   (tryLoadNextInodeNumber_spec ⟨some ⟨false, [1]⟩, []⟩).2
     ⟨false, [1]⟩ rfl (Or.inl rfl)⟩

/-- C7.  Opening the overlay returns the persisted next inode number after a
clean close with that value, and returns `none` exactly after an unclean
shutdown: a session that opened the overlay (consuming the clean-shutdown
marker) and then crashed without closing leaves a disk on which the next
open recovers nothing and the caller must rescan. -/
theorem initOverlay_spec (d d₂ : OverlayDisk) (n : Nat) (v : Option Nat)
    (hn : n < 2 ^ 64) (hopen : initOverlay d = .ok (v, d₂)) :
    initOverlay (closeOverlay d (some n)) =
      .ok (some n, { d with nextInodeFile := none }) ∧
    initOverlay d₂ = .ok (none, d₂) := by
  constructor
  · simp [initOverlay, closeOverlay, tryLoadNextInodeNumber,
      encodeU64_length, decodeU64_encodeU64 n hn]
  · have : d₂ = { d with nextInodeFile := none } := by
      simp only [initOverlay] at hopen
      cases htry : tryLoadNextInodeNumber d with
      | error e => rw [htry] at hopen; cases hopen
      | ok w => rw [htry] at hopen; cases hopen; rfl
    rw [this]
    rfl

/-- C7 witness: on a disk whose previous session closed cleanly with next
inode number 17, reopening returns 17; opening and then crashing (no close)
leaves a disk on which the next open returns `none`. -/
theorem initOverlay_spec_witness :
    17 < 2 ^ 64 ∧
    initOverlay ⟨some ⟨true, encodeU64 17⟩, [3]⟩ =
      .ok (some 17, ⟨none, [3]⟩) ∧
    (initOverlay (closeOverlay ⟨some ⟨true, encodeU64 17⟩, [3]⟩ (some 17)) =
      .ok (some 17, ⟨none, [3]⟩) ∧
     initOverlay (⟨none, [3]⟩ : OverlayDisk) = .ok (none, ⟨none, [3]⟩)) :=
  ⟨by norm_num, rfl,
   initOverlay_spec ⟨some ⟨true, encodeU64 17⟩, [3]⟩ ⟨none, [3]⟩ 17
     (some 17) (by norm_num) rfl⟩

/-! ### Directory overlay records (claims C2, C3)

Modelled from the spec: the bodies of `FsOverlay::saveOverlayDir`,
`FsOverlay::loadOverlayDir`, `FsOverlay::createHeader` and
`FsOverlay::validateHeader` are not among the sources.  Per the spec, every
record is framed with a fixed 64-byte header carrying a 4-byte kind
identifier, a 4-byte format version and enough length information to detect
a torn write; the directory listing payload follows the header. -/

/-- Little-endian byte decoding of an unsigned 32-bit value. -/
def decodeU32 (bytes : List Nat) : Nat :=
  bytes.foldr (fun b acc => b + 256 * acc) 0

/-- Little-endian byte encoding of an unsigned 32-bit value. -/
def encodeU32 (n : Nat) : List Nat :=
  [n % 256, n / 256 % 256, n / 2 ^ 16 % 256, n / 2 ^ 24 % 256]

theorem decodeU32_encodeU32 (n : Nat) :
    decodeU32 (encodeU32 n) = n % 2 ^ 32 := by
  simp only [decodeU32, encodeU32, List.foldr]
  omega

/-- A directory listing: a list of entries, each a name (as bytes) paired
with an object hash (abstracted to a number). -/
abbrev OverlayDir := List (List Nat × Nat)

/-- Payload encoding of one directory entry: length-prefixed name followed
by the hash. -/
def encodeDirEntry (e : List Nat × Nat) : List Nat :=
  e.1.length :: (e.1 ++ [e.2])

/-- Payload encoding of a directory listing. -/
def serializeDir : OverlayDir → List Nat
  | [] => []
  | e :: rest => encodeDirEntry e ++ serializeDir rest

/-- Payload decoding of a directory listing; the fuel argument only bounds
the recursion depth and any value at least the length of the input is
enough.  Returns `none` on malformed payloads. -/
def deserializeDirAux : Nat → List Nat → Option OverlayDir
  | _, [] => some []
  | 0, _ :: _ => none
  | fuel + 1, len :: rest =>
    match rest.drop len with
    | [] => none
    | hash :: rest₂ =>
      match deserializeDirAux fuel rest₂ with
      | some dir => some ((rest.take len, hash) :: dir)
      | none => none

theorem deserializeDirAux_serializeDir (dir : OverlayDir) (fuel : Nat)
    (h : (serializeDir dir).length ≤ fuel) :
    deserializeDirAux fuel (serializeDir dir) = some dir := by
  induction dir generalizing fuel with
  | nil => cases fuel <;> rfl
  | cons e rest ih =>
    obtain ⟨name, hash⟩ := e
    have hser : serializeDir ((name, hash) :: rest) =
        name.length :: (name ++ (hash :: serializeDir rest)) := by
      simp [serializeDir, encodeDirEntry]
    rw [hser] at h ⊢
    cases fuel with
    | zero => simp at h
    | succ fuel =>
      have hdrop : (name ++ (hash :: serializeDir rest)).drop name.length =
          hash :: serializeDir rest := List.drop_left name _
      have htake : (name ++ (hash :: serializeDir rest)).take name.length =
          name := List.take_left name _
      have hrec : deserializeDirAux fuel (serializeDir rest) = some rest := by
        apply ih
        simp only [List.length_cons, List.length_append] at h
        omega
      simp only [deserializeDirAux, hdrop, htake, hrec]

/-- Modelled from the spec: the 64-byte header framing every overlay record:
the 4-byte kind identifier, the 4-byte format version, 4 bytes recording the
payload length (the length information validating that the payload was
written completely) and zero padding up to `kHeaderLength`. -/
def createHeader (identifier : List Nat) (version payloadLength : Nat) :
    List Nat :=
  identifier ++ encodeU32 version ++ encodeU32 payloadLength ++
    List.replicate (kHeaderLength - 12) 0

/-- Modelled from the spec: `FsOverlay::validateHeader` checks that the
record is long enough to contain a header, that the kind identifier matches,
that the version is the supported one, and that the recorded payload length
matches the actual content (a torn write is detected here). -/
def validateHeader (contents : List Nat) (headerId : List Nat) : Bool :=
  decide (kHeaderLength ≤ contents.length ∧
    contents.take 4 = headerId ∧
    (contents.drop 4).take 4 = encodeU32 kHeaderVersion ∧
    (contents.drop 8).take 4 = encodeU32 (contents.length - kHeaderLength))

/-- The full record bytes written for a directory listing. -/
def dirRecord (dir : OverlayDir) : List Nat :=
  createHeader kHeaderIdentifierDir kHeaderVersion (serializeDir dir).length ++
    serializeDir dir

/-- The overlay record store: a map from inode number to record bytes. -/
abbrev RecordStore := Nat → Option (List Nat)

/-- Writes the record bytes for one inode number. -/
def setRecord (store : RecordStore) (id : Nat) (bytes : List Nat) :
    RecordStore :=
  fun i => if i = id then some bytes else store i

/-- Modelled from the spec: `FsOverlay::saveOverlayDir` serializes the
listing, frames it with the directory-kind header and writes it under the
inode number's record file. -/
def saveOverlayDir (store : RecordStore) (id : Nat) (dir : OverlayDir) :
    RecordStore :=
  setRecord store id (dirRecord dir)

/-- Modelled from the spec: `FsOverlay::loadOverlayDir` returns `none` when
no record file exists, fails with a corruption error when the record exists
but its header does not validate or its payload does not deserialize, and
otherwise returns the stored listing. -/
def loadOverlayDir (store : RecordStore) (id : Nat) :
    Except OverlayError (Option OverlayDir) :=
  match store id with
  | none => .ok none
  | some contents =>
    if validateHeader contents kHeaderIdentifierDir then
      match deserializeDirAux contents.length (contents.drop kHeaderLength) with
      | some dir => .ok (some dir)
      | none => .error .corruptionError
    else .error .corruptionError

/-- Overwrites the version field (bytes 4 to 7) of a record with the
encoding of `v`, leaving the rest of the record unchanged. -/
def corruptVersion (contents : List Nat) (v : Nat) : List Nat :=
  contents.take 4 ++ encodeU32 v ++ contents.drop 8

theorem dirRecord_eq (dir : OverlayDir) :
    dirRecord dir = kHeaderIdentifierDir ++ encodeU32 kHeaderVersion ++
      encodeU32 (serializeDir dir).length ++
      List.replicate (kHeaderLength - 12) 0 ++ serializeDir dir := by
  simp [dirRecord, createHeader, List.append_assoc]

theorem dirRecord_length (dir : OverlayDir) :
    (dirRecord dir).length = kHeaderLength + (serializeDir dir).length := by
  rw [dirRecord_eq]
  simp [kHeaderIdentifierDir, encodeU32, kHeaderLength]
  omega

theorem validateHeader_dirRecord (dir : OverlayDir) :
    validateHeader (dirRecord dir) kHeaderIdentifierDir = true := by
  have hlen := dirRecord_length dir
  rw [validateHeader, decide_eq_true_eq, dirRecord_eq]
  rw [dirRecord_eq] at hlen
  simp only [kHeaderIdentifierDir, kHeaderVersion, kHeaderLength, encodeU32] at hlen ⊢
  norm_num at hlen ⊢
  refine ⟨by omega, ?_⟩
  omega

theorem deserializeDirAux_dirRecord (dir : OverlayDir) :
    deserializeDirAux (dirRecord dir).length
      ((dirRecord dir).drop kHeaderLength) = some dir := by
  have hdrop : (dirRecord dir).drop kHeaderLength = serializeDir dir := by
    rw [dirRecord, createHeader]
    rw [show kHeaderLength = (kHeaderIdentifierDir ++ encodeU32 kHeaderVersion ++
      encodeU32 (serializeDir dir).length ++
      List.replicate (kHeaderLength - 12) 0).length by
        simp [kHeaderIdentifierDir, encodeU32, kHeaderLength]]
    rw [List.append_assoc, List.append_assoc, List.append_assoc]
    rw [← List.append_assoc, ← List.append_assoc, ← List.append_assoc]
    exact List.drop_left _ _
  rw [hdrop]
  apply deserializeDirAux_serializeDir
  rw [dirRecord_length]
  omega

/-- C2.  Round-trip: saving a directory listing and loading it back under
the same inode number returns the original listing; and if the stored
record's header version field is corrupted (overwritten with any value other
than the supported version), loading fails with a corruption error instead
of returning data. -/
theorem saveOverlayDir_loadOverlayDir (store : RecordStore) (id : Nat)
    (dir : OverlayDir) :
    loadOverlayDir (saveOverlayDir store id dir) id = .ok (some dir) ∧
    (∀ v, v % 2 ^ 32 ≠ kHeaderVersion →
      loadOverlayDir (setRecord store id (corruptVersion (dirRecord dir) v))
        id = .error .corruptionError) := by
  constructor
  · have hs : saveOverlayDir store id dir id = some (dirRecord dir) := by
      simp [saveOverlayDir, setRecord]
    simp only [loadOverlayDir, hs, validateHeader_dirRecord, if_true,
      deserializeDirAux_dirRecord]
  · intro v hv
    have hcorrupt : corruptVersion (dirRecord dir) v =
        kHeaderIdentifierDir ++ encodeU32 v ++
          encodeU32 (serializeDir dir).length ++
          List.replicate (kHeaderLength - 12) 0 ++ serializeDir dir := by
      rw [corruptVersion, dirRecord_eq]
      simp [kHeaderIdentifierDir, encodeU32, List.take, List.drop]
    have hfield : ((corruptVersion (dirRecord dir) v).drop 4).take 4 =
        encodeU32 v := by
      rw [hcorrupt]
      simp only [List.append_assoc]
      rw [show (4 : Nat) = kHeaderIdentifierDir.length from rfl, List.drop_left]
      rw [show kHeaderIdentifierDir.length = (encodeU32 v).length from rfl,
        List.take_left]
    have hbad : validateHeader (corruptVersion (dirRecord dir) v)
        kHeaderIdentifierDir = false := by
      rw [validateHeader, decide_eq_false_iff_not]
      intro hval
      have hver := hval.2.2.1
      rw [hfield] at hver
      have hdec := congrArg decodeU32 hver
      rw [decodeU32_encodeU32, decodeU32_encodeU32] at hdec
      norm_num [kHeaderVersion] at hdec hv
      exact hv hdec
    have hs : setRecord store id (corruptVersion (dirRecord dir) v) id =
        some (corruptVersion (dirRecord dir) v) := by
      simp [setRecord]
    simp [loadOverlayDir, hs, hbad]

/-- C2 witness: saving the one-entry listing with name byte 97 and hash 5
under inode 7 and loading it back returns the listing; overwriting the
version field with 2 makes the load fail with a corruption error. -/
theorem saveOverlayDir_loadOverlayDir_witness :
    loadOverlayDir (saveOverlayDir (fun _ => none) 7 [([97], 5)]) 7 =
      .ok (some [([97], 5)]) ∧
    loadOverlayDir
      (setRecord (fun _ => none) 7 (corruptVersion (dirRecord [([97], 5)]) 2))
      7 = .error .corruptionError :=
  ⟨(saveOverlayDir_loadOverlayDir (fun _ => none) 7 [([97], 5)]).1,
   (saveOverlayDir_loadOverlayDir (fun _ => none) 7 [([97], 5)]).2 2
     (by norm_num [kHeaderVersion])⟩

/-- C3.  Loading a directory record returns `none` exactly when no record
exists for the inode number; it fails with a corruption error whenever a
record exists but fails header validation — in particular whenever the
record is too short to contain a header (truncated), and header validation
rejects any wrong magic identifier or unknown version by construction — and
it never silently accepts a malformed record: a successful load implies the
stored record validated and deserialized to the returned listing. -/
theorem loadOverlayDir_spec (store : RecordStore) (id : Nat) :
    (loadOverlayDir store id = .ok none ↔ store id = none) ∧
    (∀ c, store id = some c →
      validateHeader c kHeaderIdentifierDir = false →
      loadOverlayDir store id = .error .corruptionError) ∧
    (∀ c, c.length < kHeaderLength →
      validateHeader c kHeaderIdentifierDir = false) ∧
    (∀ dir, loadOverlayDir store id = .ok (some dir) →
      ∃ c, store id = some c ∧
        validateHeader c kHeaderIdentifierDir = true ∧
        deserializeDirAux c.length (c.drop kHeaderLength) = some dir) := by
  refine ⟨⟨?_, ?_⟩, ?_, ?_, ?_⟩
  · intro h
    cases hs : store id with
    | none => rfl
    | some c =>
      simp only [loadOverlayDir, hs] at h
      by_cases hval : validateHeader c kHeaderIdentifierDir
      · rw [if_pos hval] at h
        cases hdes : deserializeDirAux c.length (c.drop kHeaderLength) <;>
          rw [hdes] at h <;> simp at h
      · rw [if_neg hval] at h
        cases h
  · intro h
    simp [loadOverlayDir, h]
  · intro c hc hval
    simp only [loadOverlayDir, hc, hval, Bool.false_eq_true, if_false]
  · intro c hshort
    rw [validateHeader, decide_eq_false_iff_not]
    intro hval
    omega
  · intro dir h
    cases hs : store id with
    | none => simp only [loadOverlayDir, hs] at h; cases h
    | some c =>
      refine ⟨c, rfl, ?_⟩
      simp only [loadOverlayDir, hs] at h
      by_cases hval : validateHeader c kHeaderIdentifierDir
      · rw [if_pos hval] at h
        cases hdes : deserializeDirAux c.length (c.drop kHeaderLength) with
        | none => rw [hdes] at h; cases h
        | some dir' =>
          rw [hdes] at h
          cases h
          exact ⟨hval, rfl⟩
      · rw [if_neg hval] at h
        cases h

/-- C3 witness: with no record under inode 3 the load returns `none`; a
stored one-byte record fails header validation (it is truncated) and the
load fails with a corruption error. -/
theorem loadOverlayDir_spec_witness :
    (loadOverlayDir (fun _ => none) 3 = .ok none ↔
      (fun _ => none : RecordStore) 3 = none) ∧
    loadOverlayDir (setRecord (fun _ => none) 3 [9]) 3 =
      .error .corruptionError :=
  ⟨(loadOverlayDir_spec (fun _ => none) 3).1,
   (loadOverlayDir_spec (setRecord (fun _ => none) 3 [9]) 3).2.1 [9] rfl
     ((loadOverlayDir_spec (setRecord (fun _ => none) 3 [9]) 3).2.2.1 [9]
       (by norm_num [kHeaderLength]))⟩

/-! ### The diff status callback (`Differ.cpp`, claims C4, C8)

`ThriftStatusCallback` holds a `folly::Synchronized<std::map<std::string,
ScmFileStatus>>`.  Each sink callback takes the write lock and performs one
`emplace`; `diffError` only logs a warning and does not touch the map.  We
model the map as a list of pairs sorted by key, `emplace` as ordered
insertion that keeps an existing binding, and a concurrent diff walk as an
arbitrary interleaving of the per-subtree event sequences, each event being
one atomic insertion. -/

/-- The four file classifications of `ScmFileStatus`. -/
inductive ScmFileStatus
  | added
  | modified
  | removed
  | ignored
deriving DecidableEq, Repr

/-- One sink callback invocation of `InodeDiffCallback`, as dispatched by
the diff walk to `ThriftStatusCallback`. -/
inductive DiffEvent
  | ignoredFile (path : String)
  | untrackedFile (path : String)
  | removedFile (path : String)
  | modifiedFile (path : String)
  | diffError (path : String) (cause : String)
deriving DecidableEq, Repr

/-- The callback's accumulated `data_`, modelling `std::map` as a list of
key-value pairs sorted by key. -/
abbrev StatusEntries := List (String × ScmFileStatus)

/-- Key order of the result map. -/
def pathLt (a b : String × ScmFileStatus) : Prop := a.1 < b.1

/-- Ordered insertion modelling `std::map::emplace`: inserts at the sorted
position and leaves the map unchanged when the key is already bound. -/
def emplace (entries : StatusEntries) (path : String) (st : ScmFileStatus) :
    StatusEntries :=
  match entries with
  | [] => [(path, st)]
  | (k, v) :: rest =>
    if path < k then (path, st) :: (k, v) :: rest
    else if path = k then (k, v) :: rest
    else (k, v) :: emplace rest path st

/-- One callback invocation on the synchronized map, from `Differ.cpp`:
the four classification callbacks `emplace` their status under the path;
`diffError` only logs a warning and leaves `data_` unchanged. -/
def applyEvent (data : StatusEntries) : DiffEvent → StatusEntries
  | .ignoredFile p => emplace data p .ignored
  | .untrackedFile p => emplace data p .added
  | .removedFile p => emplace data p .removed
  | .modifiedFile p => emplace data p .modified
  | .diffError _ _ => data

/-- The `ScmStatus` extracted once the walk completed
(`ThriftStatusCallback::extractStatus`): the map after all events. -/
def extractStatus (events : List DiffEvent) : StatusEntries :=
  events.foldl applyEvent []

/-- An interleaving of two event sequences: any order in which two
concurrently-running subtree walks can deliver their callbacks, each
callback being atomic under the write lock. -/
inductive Interleaving :
    List DiffEvent → List DiffEvent → List DiffEvent → Prop
  | nil : Interleaving [] [] []
  | left {l r t : List DiffEvent} {e : DiffEvent} :
      Interleaving l r t → Interleaving (e :: l) r (e :: t)
  | right {l r t : List DiffEvent} {e : DiffEvent} :
      Interleaving l r t → Interleaving l (e :: r) (e :: t)

theorem emplace_head_lt {k : String} {v : ScmFileStatus}
    {rest : StatusEntries} {path : String} {st : ScmFileStatus}
    (hk : k < path) (hrest : ∀ b ∈ rest.head?, pathLt (k, v) b) :
    ∀ b ∈ (emplace rest path st).head?, pathLt (k, v) b := by
  cases rest with
  | nil =>
    intro b hb
    simp only [emplace, List.head?_cons, Option.mem_def, Option.some.injEq] at hb
    subst hb
    exact hk
  | cons e rest' =>
    obtain ⟨k₂, v₂⟩ := e
    intro b hb
    by_cases h1 : path < k₂
    · simp only [emplace, if_pos h1, List.head?_cons, Option.mem_def,
        Option.some.injEq] at hb
      subst hb
      exact hk
    · by_cases h2 : path = k₂
      · subst h2
        rw [emplace, if_neg h1, if_pos rfl] at hb
        simp only [List.head?_cons, Option.mem_def, Option.some.injEq] at hb
        subst hb
        exact hrest (path, v₂) rfl
      · simp only [emplace, if_neg h1, if_neg h2, List.head?_cons,
          Option.mem_def, Option.some.injEq] at hb
        subst hb
        exact hrest (k₂, v₂) rfl

theorem emplace_chain' {entries : StatusEntries} {path : String}
    {st : ScmFileStatus} (h : List.Chain' pathLt entries) :
    List.Chain' pathLt (emplace entries path st) := by
  induction entries with
  | nil => simp [emplace]
  | cons e rest ih =>
    obtain ⟨k, v⟩ := e
    rw [List.chain'_cons'] at h
    by_cases h1 : path < k
    · rw [emplace, if_pos h1, List.chain'_cons']
      refine ⟨?_, List.chain'_cons'.mpr h⟩
      intro b hb
      simp only [List.head?_cons, Option.mem_def, Option.some.injEq] at hb
      subst hb
      exact h1
    · by_cases h2 : path = k
      · rw [emplace, if_neg h1, if_pos h2]
        exact List.chain'_cons'.mpr h
      · rw [emplace, if_neg h1, if_neg h2, List.chain'_cons']
        have hk : k < path := by
          rcases lt_trichotomy path k with hlt | heq | hgt
          · exact absurd hlt h1
          · exact absurd heq h2
          · exact hgt
        exact ⟨emplace_head_lt hk h.1, ih h.2⟩

theorem applyEvent_chain' {data : StatusEntries} {e : DiffEvent}
    (h : List.Chain' pathLt data) : List.Chain' pathLt (applyEvent data e) := by
  cases e <;> simp only [applyEvent] <;> first
    | exact h
    | exact emplace_chain' h

theorem foldl_applyEvent_chain' (events : List DiffEvent)
    (acc : StatusEntries) (h : List.Chain' pathLt acc) :
    List.Chain' pathLt (events.foldl applyEvent acc) := by
  induction events generalizing acc with
  | nil => exact h
  | cons e rest ih => exact ih (applyEvent acc e) (applyEvent_chain' h)

/-- C8.  For any two concurrently-running subtree walks delivering their
callbacks in an arbitrary interleaving of atomic insertions, the extracted
diff result is an ordered mapping keyed by relative path (its entries are
strictly sorted by key, so keys are also unique) and its values are drawn
only from added, modified, removed and ignored. -/
theorem extractStatus_ordered (l₁ l₂ t : List DiffEvent)
    (_h : Interleaving l₁ l₂ t) :
    List.Chain' pathLt (extractStatus t) ∧
    ∀ pr ∈ extractStatus t, pr.2 = ScmFileStatus.added ∨
      pr.2 = ScmFileStatus.modified ∨ pr.2 = ScmFileStatus.removed ∨
      pr.2 = ScmFileStatus.ignored := by
  refine ⟨foldl_applyEvent_chain' t [] (by simp), ?_⟩
  intro pr _
  cases pr.2 <;> simp

/-- C8 witness: a two-event interleaving of two one-event walks yields a
sorted two-entry result with classification values only. -/
theorem extractStatus_ordered_witness :
    Interleaving [DiffEvent.untrackedFile "b"] [DiffEvent.ignoredFile "a"]
      [DiffEvent.untrackedFile "b", DiffEvent.ignoredFile "a"] ∧
    (List.Chain' pathLt (extractStatus
        [DiffEvent.untrackedFile "b", DiffEvent.ignoredFile "a"]) ∧
     ∀ pr ∈ extractStatus
        [DiffEvent.untrackedFile "b", DiffEvent.ignoredFile "a"],
       pr.2 = ScmFileStatus.added ∨ pr.2 = ScmFileStatus.modified ∨
       pr.2 = ScmFileStatus.removed ∨ pr.2 = ScmFileStatus.ignored) :=
  ⟨Interleaving.left (Interleaving.right Interleaving.nil),
   extractStatus_ordered _ _ _
     (Interleaving.left (Interleaving.right Interleaving.nil))⟩

/-- C4 counterexample: in `Differ.cpp`, `ThriftStatusCallback::diffError`
only logs the failure (its own comment notes returning error info in the
result is unimplemented), so the accumulated errors are not reported in the
diff result: a walk that reports one untracked file and one per-path error
extracts a status containing only the untracked file and no binding for the
errored path. -/
theorem diffError_absent_from_result :
    extractStatus [DiffEvent.untrackedFile "b",
        DiffEvent.diffError "a" "io failure"] =
      [("b", ScmFileStatus.added)] ∧
    (extractStatus [DiffEvent.untrackedFile "b",
        DiffEvent.diffError "a" "io failure"]).lookup "a" = none := by
  constructor <;> rfl

/-- C4 (amended).  A per-path failure is delivered through the distinct
`diffError(path, cause)` sink callback and never aborts the overall walk:
all events after the error are still processed and the result is exactly
the one produced by the successful classifications alone.  The error itself
is only logged and is not part of the extracted diff result. -/
theorem extractStatus_diffError_skipped (pre post : List DiffEvent)
    (p cause : String) :
    extractStatus (pre ++ DiffEvent.diffError p cause :: post) =
      extractStatus (pre ++ post) := by
  simp [extractStatus, List.foldl_append, applyEvent]

/-! ### Rename as one atomic step (`TreeInode.h`, claim C5)

Modelled from the spec: the bodies of `TreeInode::rename` and
`TreeInode::renameHelper` are not among the sources.  Per the spec, a rename
looks up the source entry (failing with a not-found error when absent) and
applies the removal from the source directory and the insertion into the
destination directory as one logically atomic step: the rename is a single
function from the old directory map to the new one, so the only observable
states are the state before and the state after. -/

/-- A directory entry of `TreeInode::Entry`: the `st_mode` bits, the
optional source-control object hash and the materialization flag. -/
structure DirEntry where
  mode : Nat
  hash : Option Nat
  materialized : Bool
deriving DecidableEq, Repr

/-- The contents of one directory: child names mapped to entries. -/
abbrev Dir := List (String × DirEntry)

/-- Looks a child name up in a directory. -/
def lookupEntry (d : Dir) (name : String) : Option DirEntry :=
  match d.find? (fun kv => kv.1 == name) with
  | some kv => some kv.2
  | none => none

/-- Removes a child name from a directory. -/
def removeEntry (d : Dir) (name : String) : Dir :=
  d.filter (fun kv => kv.1 != name)

/-- Binds a child name in a directory, replacing any existing binding. -/
def insertEntry (d : Dir) (name : String) (e : DirEntry) : Dir :=
  (name, e) :: removeEntry d name

/-- The contents of all directories, keyed by directory inode number. -/
abbrev DirMap := Nat → Dir

/-- Modelled from the spec: `TreeInode::rename`/`renameHelper`.  Fails when
the source entry is missing; otherwise removes the entry from the source
directory and inserts it into the destination directory in one atomic step
producing the new directory map. -/
def rename (dirs : DirMap) (srcDir : Nat) (srcName : String) (dstDir : Nat)
    (dstName : String) : Option DirMap :=
  match lookupEntry (dirs srcDir) srcName with
  | none => none
  | some e =>
    let afterRemove : DirMap := fun i =>
      if i = srcDir then removeEntry (dirs srcDir) srcName else dirs i
    some fun i =>
      if i = dstDir then insertEntry (afterRemove dstDir) dstName e
      else afterRemove i

theorem lookupEntry_cons (k : String) (v : DirEntry) (rest : Dir)
    (n : String) :
    lookupEntry ((k, v) :: rest) n =
      if k = n then some v else lookupEntry rest n := by
  by_cases h : k = n
  · simp [lookupEntry, List.find?_cons_of_pos, h]
  · simp [lookupEntry, List.find?_cons_of_neg, h]

theorem removeEntry_cons (k : String) (v : DirEntry) (rest : Dir)
    (n : String) :
    removeEntry ((k, v) :: rest) n =
      if k = n then removeEntry rest n else (k, v) :: removeEntry rest n := by
  by_cases h : k = n <;> simp [removeEntry, List.filter_cons, h]

theorem lookupEntry_removeEntry_self (d : Dir) (n : String) :
    lookupEntry (removeEntry d n) n = none := by
  induction d with
  | nil => rfl
  | cons kv rest ih =>
    obtain ⟨k, v⟩ := kv
    rw [removeEntry_cons]
    by_cases h : k = n
    · rw [if_pos h]
      exact ih
    · rw [if_neg h, lookupEntry_cons, if_neg h]
      exact ih

theorem lookupEntry_removeEntry_ne (d : Dir) (n n' : String) (h : n' ≠ n) :
    lookupEntry (removeEntry d n) n' = lookupEntry d n' := by
  induction d with
  | nil => rfl
  | cons kv rest ih =>
    obtain ⟨k, v⟩ := kv
    rw [removeEntry_cons]
    by_cases hk : k = n
    · have hk' : k ≠ n' := fun he => h (he.symm.trans hk)
      rw [if_pos hk, lookupEntry_cons, if_neg hk']
      exact ih
    · rw [if_neg hk, lookupEntry_cons, lookupEntry_cons]
      by_cases hk' : k = n'
      · rw [if_pos hk', if_pos hk']
      · rw [if_neg hk', if_neg hk']
        exact ih

theorem lookupEntry_insertEntry_self (d : Dir) (n : String) (e : DirEntry) :
    lookupEntry (insertEntry d n e) n = some e := by
  rw [insertEntry, lookupEntry_cons, if_pos rfl]

theorem lookupEntry_insertEntry_ne (d : Dir) (n n' : String) (e : DirEntry)
    (h : n' ≠ n) :
    lookupEntry (insertEntry d n e) n' = lookupEntry d n' := by
  rw [insertEntry, lookupEntry_cons, if_neg (fun he => h he.symm)]
  exact lookupEntry_removeEntry_ne d n n' h

theorem rename_eq (dirs : DirMap) (srcDir : Nat) (srcName : String)
    (dstDir : Nat) (dstName : String) (e : DirEntry)
    (h : lookupEntry (dirs srcDir) srcName = some e)
    (hne : dstDir ≠ srcDir) :
    rename dirs srcDir srcName dstDir dstName = some fun i =>
      if i = dstDir then insertEntry (dirs dstDir) dstName e
      else if i = srcDir then removeEntry (dirs srcDir) srcName
      else dirs i := by
  simp only [rename, h, Option.some.injEq]
  funext i
  by_cases h1 : i = dstDir
  · subst h1
    simp [hne]
  · by_cases h2 : i = srcDir <;> simp [h1, h2, Ne.symm hne]

/-- C5.  A rename whose source entry exists performs the removal from the
source directory and the insertion into the destination as one atomic step:
the only observable states are the map before and the map after; when the
entry was not already at the destination binding, the entry is present in
exactly one of the two directories in both observable states (never in both,
never in neither); directories other than the two involved are untouched;
and two renames across the same two directories in opposite directions, run
atomically in sequence, leave each moved entry in exactly one directory. -/
theorem rename_atomic (dirs dirs' : DirMap) (A B : Nat)
    (srcName dstName n₂ : String) (e e₂ : DirEntry)
    (hAB : A ≠ B)
    (hsrc : lookupEntry (dirs A) srcName = some e)
    (hrun : rename dirs A srcName B dstName = some dirs')
    (hn₂s : n₂ ≠ srcName) (hn₂d : n₂ ≠ dstName)
    (h₂ : lookupEntry (dirs B) n₂ = some e₂) :
    (lookupEntry (dirs' B) dstName = some e ∧
     lookupEntry (dirs' A) srcName = none) ∧
    (lookupEntry (dirs B) dstName ≠ some e →
      ((lookupEntry (dirs A) srcName = some e ∧
        ¬lookupEntry (dirs B) dstName = some e) ∧
       (lookupEntry (dirs' B) dstName = some e ∧
        ¬lookupEntry (dirs' A) srcName = some e))) ∧
    (∀ i, i ≠ A → i ≠ B → dirs' i = dirs i) ∧
    (∃ dirs'', rename dirs' B n₂ A n₂ = some dirs'' ∧
      (lookupEntry (dirs'' B) dstName = some e ∧
       lookupEntry (dirs'' A) srcName = none) ∧
      (lookupEntry (dirs'' A) n₂ = some e₂ ∧
       lookupEntry (dirs'' B) n₂ = none)) := by
  have hBA : B ≠ A := fun h => hAB h.symm
  rw [rename_eq dirs A srcName B dstName e hsrc hBA, Option.some.injEq] at hrun
  have happB : dirs' B = insertEntry (dirs B) dstName e := by
    rw [← hrun]
    simp [hBA]
  have happA : dirs' A = removeEntry (dirs A) srcName := by
    rw [← hrun]
    simp [hAB]
  have hpostB : lookupEntry (dirs' B) dstName = some e := by
    rw [happB]
    exact lookupEntry_insertEntry_self _ _ _
  have hpostA : lookupEntry (dirs' A) srcName = none := by
    rw [happA]
    exact lookupEntry_removeEntry_self _ _
  refine ⟨⟨hpostB, hpostA⟩, ?_, ?_, ?_⟩
  · intro hnot
    exact ⟨⟨hsrc, hnot⟩, hpostB, fun h => by rw [hpostA] at h; cases h⟩
  · intro i hiA hiB
    rw [← hrun]
    simp [hiA, hiB]
  · have hB₂ : lookupEntry (dirs' B) n₂ = some e₂ := by
      rw [happB, lookupEntry_insertEntry_ne _ _ _ _ hn₂d]
      exact h₂
    refine ⟨_, rename_eq dirs' B n₂ A n₂ e₂ hB₂ hAB, ?_, ?_⟩
    · constructor
      · show lookupEntry
          (if B = A then insertEntry (dirs' A) n₂ e₂
           else if B = B then removeEntry (dirs' B) n₂ else dirs' B)
          dstName = some e
        rw [if_neg hBA, if_pos rfl,
          lookupEntry_removeEntry_ne _ _ _ (fun h => hn₂d h.symm)]
        exact hpostB
      · show lookupEntry
          (if A = A then insertEntry (dirs' A) n₂ e₂
           else if A = B then removeEntry (dirs' B) n₂ else dirs' A)
          srcName = none
        rw [if_pos rfl,
          lookupEntry_insertEntry_ne _ _ _ _ (fun h => hn₂s h.symm)]
        exact hpostA
    · constructor
      · show lookupEntry
          (if A = A then insertEntry (dirs' A) n₂ e₂
           else if A = B then removeEntry (dirs' B) n₂ else dirs' A)
          n₂ = some e₂
        rw [if_pos rfl]
        exact lookupEntry_insertEntry_self _ _ _
      · show lookupEntry
          (if B = A then insertEntry (dirs' A) n₂ e₂
           else if B = B then removeEntry (dirs' B) n₂ else dirs' B)
          n₂ = none
        rw [if_neg hBA, if_pos rfl]
        exact lookupEntry_removeEntry_self _ _

/-- C5 witness: moving entry x from directory 1 to directory 2 while
directory 2 holds entry y, then moving y back the other way, keeps each
entry in exactly one directory at every observable state. -/
theorem rename_atomic_witness :
    (1 : Nat) ≠ 2 ∧
    lookupEntry ([("x", ⟨420, none, true⟩)] : Dir) "x" =
      some ⟨420, none, true⟩ ∧
    ("y" : String) ≠ "x" ∧ ("y" : String) ≠ "x2" ∧
    lookupEntry ([("y", ⟨384, some 9, false⟩)] : Dir) "y" =
      some ⟨384, some 9, false⟩ ∧
    ∃ dirs', rename
        (fun i => if i = 1 then [("x", ⟨420, none, true⟩)]
          else if i = 2 then [("y", ⟨384, some 9, false⟩)] else [])
        1 "x" 2 "x2" = some dirs' ∧
      lookupEntry (dirs' 2) "x2" = some ⟨420, none, true⟩ ∧
      lookupEntry (dirs' 1) "x" = none := by
  refine ⟨by norm_num, by rfl, by decide, by decide, by rfl, ?_⟩
  have h := rename_atomic
    (fun i => if i = 1 then [("x", ⟨420, none, true⟩)]
      else if i = 2 then [("y", ⟨384, some 9, false⟩)] else [])
    _ 1 2 "x" "x2" "y" ⟨420, none, true⟩ ⟨384, some 9, false⟩
    (by norm_num) (by rfl) rfl (by decide) (by decide) (by rfl)
  exact ⟨_, rfl, h.1⟩

/-! ### The materialization invariant (claim C6)

Modelled from the spec: the bodies of the node-graph operations
(`TreeInode::create`, `unlink`, `rmdir`, `rename`,
`materializeDirAndParents`) are not among the sources; `TreeInode.h`
declares them and defines `TreeInode::Entry` with its `materialized` flag.
We model the node graph as a flat list of entries (each holding its parent
directory's inode number, its name, its own inode number, its mode and its
materialization flag) together with the set of inode numbers having a live
overlay record and the allocator's next identifier.  Each operation follows
the spec: a mutation first materializes the directory (writing its record
and flipping the flags of entries bearing its inode number), `create`
allocates a fresh identifier and an empty record, `unlink`/`rmdir` delete
the child's record if it was materialized, and `rename` moves the entry
without touching its record. -/

/-- One directory entry of the node graph, `TreeInode::Entry` extended with
its binding (parent inode number and name) and its own inode number. -/
structure GraphEntry where
  dirId : Nat
  name : String
  nodeId : Nat
  mode : Nat
  materialized : Bool
deriving DecidableEq, Repr

/-- The node graph with its overlay store: all entries, the inode numbers
holding a live overlay record, and the next inode number to allocate. -/
structure GraphState where
  entries : List GraphEntry
  overlay : List Nat
  nextId : Nat
deriving DecidableEq, Repr

/-- A fresh mount: no entries, no records, allocator starting just above
the root inode number. -/
def initialState : GraphState :=
  { entries := [], overlay := [], nextId := kRootNodeId + 1 }

/-- Existence check for an overlay record, `FsOverlay::hasOverlayData`. -/
def hasOverlayData (s : GraphState) (id : Nat) : Bool :=
  decide (id ∈ s.overlay)

namespace TreeInode

/-- Finds the entry bound under `name` in directory `dirId`. -/
def findEntry (s : GraphState) (dirId : Nat) (name : String) :
    Option GraphEntry :=
  s.entries.find? fun e => e.dirId == dirId && e.name == name

/-- Materializes the node `id`: writes its overlay record and flips the
materialization flag of the entry bearing `id`. -/
def materializeNode (s : GraphState) (id : Nat) : GraphState :=
  { s with
    entries := s.entries.map fun e =>
      if e.nodeId = id then { e with materialized := true } else e,
    overlay := if id ∈ s.overlay then s.overlay else id :: s.overlay }

/-- Deletes the overlay record of node `id`. -/
def removeRecord (overlay : List Nat) (id : Nat) : List Nat :=
  overlay.filter fun x => x != id

/-- Removes the binding of `name` in directory `dirId` from the entry
list. -/
def removeChildEntry (entries : List GraphEntry) (dirId : Nat)
    (name : String) : List GraphEntry :=
  entries.filter fun e => !(e.dirId == dirId && e.name == name)

/-- Modelled from the spec: `TreeInode::create` fails if the name is
present; otherwise materializes the parent directory, allocates a fresh
inode number, inserts a materialized entry and creates its (empty) overlay
record. -/
def create (s : GraphState) (dirId : Nat) (name : String) (mode : Nat) :
    Option GraphState :=
  if dirId < s.nextId then
    match findEntry s dirId name with
    | some _ => none
    | none =>
      let s' := materializeNode s dirId
      some { entries :=
               ⟨dirId, name, s.nextId, mode, true⟩ :: s'.entries,
             overlay := s.nextId :: s'.overlay,
             nextId := s.nextId + 1 }
  else none

/-- Modelled from the spec: `TreeInode::unlink` fails if the name is
absent; otherwise materializes the parent directory, removes the entry and
deletes the child's overlay record if the child was materialized. -/
def unlink (s : GraphState) (dirId : Nat) (name : String) :
    Option GraphState :=
  if dirId < s.nextId then
    match findEntry s dirId name with
    | none => none
    | some e =>
      let s' := materializeNode s dirId
      some { entries := removeChildEntry s'.entries dirId name,
             overlay := if e.materialized then removeRecord s'.overlay e.nodeId
               else s'.overlay,
             nextId := s.nextId }
  else none

/-- Modelled from the spec: `TreeInode::rmdir` is `unlink` with an
additional not-empty check on the removed directory. -/
def rmdir (s : GraphState) (dirId : Nat) (name : String) :
    Option GraphState :=
  match findEntry s dirId name with
  | none => none
  | some e =>
    if s.entries.any (fun c => c.dirId == e.nodeId) then none
    else unlink s dirId name

/-- Modelled from the spec: `TreeInode::rename` fails when the source entry
is missing or the destination name is taken, refuses to move a directory
into itself, materializes both directories and moves the entry to its new
binding in one step, keeping its inode number, mode, materialization flag
and overlay record. -/
def rename (s : GraphState) (srcDir : Nat) (srcName : String) (dstDir : Nat)
    (dstName : String) : Option GraphState :=
  if srcDir < s.nextId ∧ dstDir < s.nextId then
    match findEntry s srcDir srcName, findEntry s dstDir dstName with
    | some e, none =>
      if e.nodeId = dstDir then none
      else
        let s' := materializeNode (materializeNode s srcDir) dstDir
        some { entries :=
                 ⟨dstDir, dstName, e.nodeId, e.mode, e.materialized⟩ ::
                   removeChildEntry s'.entries srcDir srcName,
               overlay := s'.overlay,
               nextId := s.nextId }
    | _, _ => none
  else none

/-- Modelled from the spec: `TreeInode::materializeDirAndParents` on a
single directory: a no-op on the structure except that the directory's
record is written and its entry's flag flipped. -/
def materializeDirectory (s : GraphState) (dirId : Nat) :
    Option GraphState :=
  if dirId < s.nextId then some (materializeNode s dirId) else none

/-- One node-graph operation. -/
inductive Step : GraphState → GraphState → Prop
  | create {s s' : GraphState} {dirId : Nat} {name : String} {mode : Nat} :
      create s dirId name mode = some s' → Step s s'
  | unlink {s s' : GraphState} {dirId : Nat} {name : String} :
      unlink s dirId name = some s' → Step s s'
  | rmdir {s s' : GraphState} {dirId : Nat} {name : String} :
      rmdir s dirId name = some s' → Step s s'
  | rename {s s' : GraphState} {srcDir dstDir : Nat}
      {srcName dstName : String} :
      rename s srcDir srcName dstDir dstName = some s' → Step s s'
  | materializeDirectory {s s' : GraphState} {dirId : Nat} :
      materializeDirectory s dirId = some s' → Step s s'

/-- The states reachable from a fresh mount by node-graph operations. -/
inductive Reachable : GraphState → Prop
  | init : Reachable initialState
  | step {s s' : GraphState} : Reachable s → Step s s' → Reachable s'

/-- The inductive invariant: the materialization flag of every entry agrees
with record existence; inode numbers are unique across entries; every
entry's inode number is below the allocator's next identifier; and no
directory contains itself. -/
def Inv (s : GraphState) : Prop :=
  (∀ e ∈ s.entries, (e.materialized = true ↔ e.nodeId ∈ s.overlay)) ∧
  (s.entries.map GraphEntry.nodeId).Nodup ∧
  (∀ e ∈ s.entries, e.nodeId < s.nextId) ∧
  (∀ e ∈ s.entries, e.nodeId ≠ e.dirId)

theorem mem_materializeNode_overlay {s : GraphState} {id x : Nat} :
    x ∈ (materializeNode s id).overlay ↔ x ∈ s.overlay ∨ x = id := by
  simp only [materializeNode]
  by_cases h : id ∈ s.overlay
  · rw [if_pos h]
    constructor
    · exact Or.inl
    · rintro (hx | rfl)
      · exact hx
      · exact h
  · rw [if_neg h, List.mem_cons]
    exact or_comm

theorem mem_removeRecord {x id : Nat} {l : List Nat} :
    x ∈ removeRecord l id ↔ x ∈ l ∧ x ≠ id := by
  simp [removeRecord, List.mem_filter]

theorem mem_removeChildEntry {l : List GraphEntry} {dirId : Nat}
    {name : String} {f : GraphEntry} :
    f ∈ removeChildEntry l dirId name ↔
      f ∈ l ∧ ¬(f.dirId = dirId ∧ f.name = name) := by
  simp only [removeChildEntry, List.mem_filter, Bool.not_eq_eq_eq_not,
    Bool.not_true, Bool.and_eq_false_imp, beq_iff_eq, beq_eq_false_iff_ne,
    ne_eq]
  constructor
  · rintro ⟨hmem, himp⟩
    exact ⟨hmem, fun hand => himp hand.1 hand.2⟩
  · rintro ⟨hmem, hnot⟩
    exact ⟨hmem, fun hd hn => hnot ⟨hd, hn⟩⟩

theorem map_nodeId_materialize (l : List GraphEntry) (id : Nat) :
    (l.map fun e =>
        if e.nodeId = id then { e with materialized := true } else e).map
      GraphEntry.nodeId = l.map GraphEntry.nodeId := by
  induction l with
  | nil => rfl
  | cons e rest ih => by_cases h : e.nodeId = id <;> simp [h, ih]

theorem materializeNode_map_nodeId (s : GraphState) (id : Nat) :
    (materializeNode s id).entries.map GraphEntry.nodeId =
      s.entries.map GraphEntry.nodeId :=
  map_nodeId_materialize s.entries id

theorem mem_materializeNode_entries {s : GraphState} {id : Nat}
    {f : GraphEntry} (hf : f ∈ (materializeNode s id).entries) :
    ∃ g ∈ s.entries,
      (g.nodeId = id ∧ f = { g with materialized := true }) ∨
      (g.nodeId ≠ id ∧ f = g) := by
  simp only [materializeNode, List.mem_map] at hf
  obtain ⟨g, hg, hfg⟩ := hf
  refine ⟨g, hg, ?_⟩
  by_cases h : g.nodeId = id
  · exact Or.inl ⟨h, by rw [← hfg, if_pos h]⟩
  · exact Or.inr ⟨h, by rw [← hfg, if_neg h]⟩

theorem mem_materializeNode_fields {s : GraphState} {id : Nat}
    {f : GraphEntry} (hf : f ∈ (materializeNode s id).entries) :
    ∃ g ∈ s.entries, f.nodeId = g.nodeId ∧ f.dirId = g.dirId ∧
      f.name = g.name := by
  obtain ⟨g, hg, hcase⟩ := mem_materializeNode_entries hf
  rcases hcase with ⟨_, rfl⟩ | ⟨_, rfl⟩
  · exact ⟨g, hg, rfl, rfl, rfl⟩
  · exact ⟨f, hg, rfl, rfl, rfl⟩

theorem findEntry_some {s : GraphState} {dirId : Nat} {name : String}
    {e : GraphEntry} (h : findEntry s dirId name = some e) :
    e ∈ s.entries ∧ e.dirId = dirId ∧ e.name = name := by
  have hmem := List.mem_of_find?_eq_some h
  have hp := List.find?_some h
  simp only [Bool.and_eq_true, beq_iff_eq] at hp
  exact ⟨hmem, hp.1, hp.2⟩

theorem inv_materializeNode {s : GraphState} {id : Nat} (h : Inv s) :
    Inv (materializeNode s id) := by
  obtain ⟨h1, h2, h3, h4⟩ := h
  refine ⟨?_, ?_, ?_, ?_⟩
  · intro f hf
    obtain ⟨g, hg, hcase⟩ := mem_materializeNode_entries hf
    rcases hcase with ⟨hid, rfl⟩ | ⟨hid, rfl⟩
    · simp [mem_materializeNode_overlay, hid]
    · rw [mem_materializeNode_overlay]
      exact (h1 f hg).trans (or_iff_left hid).symm
  · rw [materializeNode_map_nodeId]
    exact h2
  · intro f hf
    obtain ⟨g, hg, hn, _, _⟩ := mem_materializeNode_fields hf
    rw [hn]
    exact h3 g hg
  · intro f hf
    obtain ⟨g, hg, hn, hd, _⟩ := mem_materializeNode_fields hf
    rw [hn, hd]
    exact h4 g hg

theorem materializeNode_nextId (s : GraphState) (id : Nat) :
    (materializeNode s id).nextId = s.nextId := rfl

theorem inv_create {s s' : GraphState} {dirId : Nat} {name : String}
    {mode : Nat} (h : Inv s) (hc : create s dirId name mode = some s') :
    Inv s' := by
  have hm := @inv_materializeNode s dirId h
  obtain ⟨h1, h2, h3, h4⟩ := h
  obtain ⟨m1, m2, m3, m4⟩ := hm
  rw [create] at hc
  by_cases hlt : dirId < s.nextId
  · rw [if_pos hlt] at hc
    cases hfind : findEntry s dirId name with
    | some e => rw [hfind] at hc; cases hc
    | none =>
      rw [hfind] at hc
      simp only [Option.some.injEq] at hc
      subst hc
      refine ⟨?_, ?_, ?_, ?_⟩
      · intro f hf
        rcases List.mem_cons.mp hf with rfl | hf'
        · simp
        · have hb : f.nodeId < s.nextId := by
            have := m3 f hf'
            rwa [materializeNode_nextId] at this

          rw [List.mem_cons]
          exact (m1 f hf').trans (or_iff_right (Nat.ne_of_lt hb)).symm
      · rw [List.map_cons, List.nodup_cons, materializeNode_map_nodeId]
        refine ⟨?_, by rwa [materializeNode_map_nodeId] at m2⟩
        intro hmem
        obtain ⟨g, hg, hgn⟩ := List.mem_map.mp hmem
        have hgn' : GraphEntry.nodeId g = s.nextId := hgn
        have := h3 g hg
        omega
      · intro f hf
        rcases List.mem_cons.mp hf with rfl | hf'
        · show s.nextId < s.nextId + 1
          omega
        · have := m3 f hf'
          rw [materializeNode_nextId] at this
          show f.nodeId < s.nextId + 1
          omega
      · intro f hf
        rcases List.mem_cons.mp hf with rfl | hf'
        · show s.nextId ≠ dirId
          omega
        · exact m4 f hf'
  · rw [if_neg hlt] at hc
    cases hc

theorem inv_unlink {s s' : GraphState} {dirId : Nat} {name : String}
    (h : Inv s) (hc : unlink s dirId name = some s') : Inv s' := by
  have hm := @inv_materializeNode s dirId h
  obtain ⟨h1, h2, h3, h4⟩ := h
  obtain ⟨m1, m2, m3, m4⟩ := hm
  rw [unlink] at hc
  by_cases hlt : dirId < s.nextId
  · rw [if_pos hlt] at hc
    cases hfind : findEntry s dirId name with
    | none => rw [hfind] at hc; cases hc
    | some e =>
      rw [hfind] at hc
      simp only [Option.some.injEq] at hc
      subst hc
      obtain ⟨hemem, hedir, hename⟩ := findEntry_some hfind
      refine ⟨?_, ?_, ?_, ?_⟩
      · intro f hf
        obtain ⟨hfM, hfnot⟩ := mem_removeChildEntry.mp hf
        cases hemat : e.materialized with
        | false =>
          simp only [hemat, Bool.false_eq_true, if_false]
          exact m1 f hfM
        | true =>
          simp only [hemat, if_true]
          rw [mem_removeRecord]
          refine (m1 f hfM).trans (and_iff_left ?_).symm
          intro hfe
          obtain ⟨g, hg, hgn, hgd, hgname⟩ := mem_materializeNode_fields hfM
          have hge : g = e :=
            List.inj_on_of_nodup_map h2 hg hemem (hgn.symm.trans hfe)
          exact hfnot ⟨by rw [hgd, hge, hedir], by rw [hgname, hge, hename]⟩
      · show ((removeChildEntry _ _ _).map GraphEntry.nodeId).Nodup
        rw [removeChildEntry]
        exact m2.sublist ((List.filter_sublist _).map _)
      · intro f hf
        obtain ⟨hfM, _⟩ := mem_removeChildEntry.mp hf
        have := m3 f hfM
        rwa [materializeNode_nextId] at this
      · intro f hf
        obtain ⟨hfM, _⟩ := mem_removeChildEntry.mp hf
        exact m4 f hfM
  · rw [if_neg hlt] at hc
    cases hc

theorem inv_rmdir {s s' : GraphState} {dirId : Nat} {name : String}
    (h : Inv s) (hc : rmdir s dirId name = some s') : Inv s' := by
  rw [rmdir] at hc
  split at hc
  · cases hc
  · split at hc
    · cases hc
    · exact inv_unlink h hc

theorem inv_rename {s s' : GraphState} {srcDir dstDir : Nat}
    {srcName dstName : String} (h : Inv s)
    (hc : rename s srcDir srcName dstDir dstName = some s') : Inv s' := by
  have hm : Inv (materializeNode (materializeNode s srcDir) dstDir) :=
    inv_materializeNode (inv_materializeNode h)
  obtain ⟨h1, h2, h3, h4⟩ := h
  obtain ⟨m1, m2, m3, m4⟩ := hm
  rw [rename] at hc
  by_cases hlt : srcDir < s.nextId ∧ dstDir < s.nextId
  · rw [if_pos hlt] at hc
    cases hsrc : findEntry s srcDir srcName with
    | none =>
      rw [hsrc] at hc
      cases hdst : findEntry s dstDir dstName <;> rw [hdst] at hc <;>
        simp at hc
    | some e =>
      rw [hsrc] at hc
      cases hdst : findEntry s dstDir dstName with
      | some e₂ => rw [hdst] at hc; simp at hc
      | none =>
        rw [hdst] at hc
        by_cases hguard : e.nodeId = dstDir
        · simp [hguard] at hc
        · simp only [Option.some.injEq, hguard, if_false] at hc
          subst hc
          obtain ⟨hemem, hedir, hename⟩ := findEntry_some hsrc
          have hesrc : e.nodeId ≠ srcDir := by
            rw [← hedir]
            exact h4 e hemem
          refine ⟨?_, ?_, ?_, ?_⟩
          · intro f hf
            rcases List.mem_cons.mp hf with rfl | hf'
            · show e.materialized = true ↔ e.nodeId ∈
                (materializeNode (materializeNode s srcDir) dstDir).overlay
              rw [mem_materializeNode_overlay, or_iff_left hguard,
                mem_materializeNode_overlay, or_iff_left hesrc]
              exact h1 e hemem
            · obtain ⟨hfM, _⟩ := mem_removeChildEntry.mp hf'
              exact m1 f hfM
          · rw [List.map_cons, List.nodup_cons]
            constructor
            · intro hmem
              obtain ⟨f, hf, hfn⟩ := List.mem_map.mp hmem
              obtain ⟨hfM, hfnot⟩ := mem_removeChildEntry.mp hf
              obtain ⟨g1, hg1, hn1, hd1, hnm1⟩ :=
                mem_materializeNode_fields hfM
              obtain ⟨g, hg, hn2, hd2, hnm2⟩ :=
                mem_materializeNode_fields hg1
              have hge : g = e := List.inj_on_of_nodup_map h2 hg hemem
                ((hn2.symm.trans (hn1.symm.trans hfn)))
              exact hfnot ⟨by rw [hd1, hd2, hge, hedir],
                by rw [hnm1, hnm2, hge, hename]⟩
            · show ((removeChildEntry _ _ _).map GraphEntry.nodeId).Nodup
              rw [removeChildEntry]
              refine List.Nodup.sublist ((List.filter_sublist _).map _) ?_
              rw [materializeNode_map_nodeId, materializeNode_map_nodeId]
              exact h2
          · intro f hf
            rcases List.mem_cons.mp hf with rfl | hf'
            · show e.nodeId < s.nextId
              exact h3 e hemem
            · obtain ⟨hfM, _⟩ := mem_removeChildEntry.mp hf'
              have := m3 f hfM
              rwa [materializeNode_nextId, materializeNode_nextId] at this
          · intro f hf
            rcases List.mem_cons.mp hf with rfl | hf'
            · show e.nodeId ≠ dstDir
              exact hguard
            · obtain ⟨hfM, _⟩ := mem_removeChildEntry.mp hf'
              exact m4 f hfM
  · rw [if_neg hlt] at hc
    cases hc

theorem inv_materializeDirectory {s s' : GraphState} {dirId : Nat}
    (h : Inv s) (hc : materializeDirectory s dirId = some s') : Inv s' := by
  rw [materializeDirectory] at hc
  by_cases hlt : dirId < s.nextId
  · rw [if_pos hlt] at hc
    simp only [Option.some.injEq] at hc
    subst hc
    exact inv_materializeNode h
  · rw [if_neg hlt] at hc
    cases hc

theorem inv_step {s s' : GraphState} (h : Inv s) (hs : Step s s') :
    Inv s' := by
  cases hs with
  | create hc => exact inv_create h hc
  | unlink hc => exact inv_unlink h hc
  | rmdir hc => exact inv_rmdir h hc
  | rename hc => exact inv_rename h hc
  | materializeDirectory hc => exact inv_materializeDirectory h hc

theorem inv_reachable {s : GraphState} (h : Reachable s) : Inv s := by
  induction h with
  | init =>
    refine ⟨?_, ?_, ?_, ?_⟩ <;> simp [initialState, Inv]
  | step _ hstep ih => exact inv_step ih hstep

end TreeInode

/-- C6.  In every reachable state of the node graph, an entry is
materialized if and only if the overlay store holds a live record for its
inode number: the equivalence holds initially and every operation (create,
unlink, rmdir, rename, materializeDirectory) preserves it. -/
theorem materialized_iff_hasOverlayData (s : GraphState)
    (h : TreeInode.Reachable s) :
    ∀ e ∈ s.entries,
      (e.materialized = true ↔ hasOverlayData s e.nodeId = true) := by
  intro e he
  have hinv := (TreeInode.inv_reachable h).1 e he
  simpa [hasOverlayData] using hinv

/-- C6 witness: the state reached from a fresh mount by creating the file
a in the root directory satisfies the equivalence for each of its
entries. -/
theorem materialized_iff_hasOverlayData_witness :
    TreeInode.Reachable ⟨[⟨1, "a", 2, 420, true⟩], [2, 1], 3⟩ ∧
    ∀ e ∈ (⟨[⟨1, "a", 2, 420, true⟩], [2, 1], 3⟩ : GraphState).entries,
      (e.materialized = true ↔
        hasOverlayData ⟨[⟨1, "a", 2, 420, true⟩], [2, 1], 3⟩ e.nodeId =
          true) :=
  have hr : TreeInode.Reachable ⟨[⟨1, "a", 2, 420, true⟩], [2, 1], 3⟩ :=
    TreeInode.Reachable.step TreeInode.Reachable.init
      (@TreeInode.Step.create initialState
        ⟨[⟨1, "a", 2, 420, true⟩], [2, 1], 3⟩ 1 "a" 420 (by decide))
  ⟨hr, materialized_iff_hasOverlayData _ hr⟩

end Eden
